import Mathlib

/-!
Verification of the sr-compare-tool view/render core: the display-scaling
cache, zoom and coordinate mapping, the difference strategy, the PSNR
computation and the single-flight similarity engine.  Python floats are
modelled by exact rationals (and reals where logarithms appear); Python
`int()` is modelled by truncation toward zero, `round(x, 6)` by
round-half-to-even at six decimals.
-/

namespace SRCompare

attribute [local semireducible] Rat.mul Rat.add Rat.sub Rat.inv

/-- An RGB pixel of the decoded image model: three channel values
(0 to 255 in the program). -/
structure Pix where
  r : ℕ
  g : ℕ
  b : ℕ
deriving DecidableEq

/-- A decoded image as the program sees it: pixel dimensions plus a pixel
lookup function. -/
structure Img where
  width : ℕ
  height : ℕ
  pix : ℕ → ℕ → Pix

/-- Image size as a pair, mirroring PIL's `im.size == (width, height)`. -/
def Img.size (im : Img) : ℕ × ℕ := (im.width, im.height)

instance (a b : Img) : Decidable (a.size = b.size) := by
  unfold Img.size; infer_instance

/-- Python `int()` applied to an exact value: truncation toward zero. -/
def pyInt (q : ℚ) : ℤ := if 0 ≤ q then ⌊q⌋ else ⌈q⌉

/-- Python round-half-to-even of an exact rational value to an integer. -/
def roundHalfEven (q : ℚ) : ℤ :=
  if q - ⌊q⌋ < 1/2 then ⌊q⌋
  else if 1/2 < q - ⌊q⌋ then ⌊q⌋ + 1
  else if Even ⌊q⌋ then ⌊q⌋ else ⌊q⌋ + 1

/-- Python `round(zoom, 6)`: rounding to six decimal places. -/
def pyRound6 (q : ℚ) : ℚ := (roundHalfEven (q * 1000000) : ℚ) / 1000000

/-- Pixel-for-pixel equality of two images: same dimensions and equal pixels
at every in-range coordinate. -/
def imgEq (a b : Img) : Prop :=
  a.width = b.width ∧ a.height = b.height ∧
    ∀ x < a.width, ∀ y < a.height, a.pix x y = b.pix x y

instance (a b : Img) : Decidable (imgEq a b) := by
  unfold imgEq; infer_instance

/-- A valid 8-bit image: every in-range pixel has all channels at most 255. -/
def valid8 (im : Img) : Prop :=
  ∀ x < im.width, ∀ y < im.height,
    (im.pix x y).r ≤ 255 ∧ (im.pix x y).g ≤ 255 ∧ (im.pix x y).b ≤ 255

instance (im : Img) : Decidable (valid8 im) := by
  unfold valid8; infer_instance

/-- sr_compare.SRCompareApp.zoom_in and view_controller.ViewController.zoom_in:
multiply the zoom by 1.25, then clamp to at most ZOOM_MAX = 64. -/
def zoom_in (z : ℚ) : ℚ := min (z * (5/4)) 64

/-- sr_compare.SRCompareApp.zoom_out and view_controller.ViewController.zoom_out:
divide the zoom by 1.25, then clamp to at least ZOOM_MIN = 0.01. -/
def zoom_out (z : ℚ) : ℚ := max (z / (5/4)) (1/100)

/-- Apply a sequence of zoom gestures (true = zoom_in, false = zoom_out). -/
def applyZoomSeq (s : List Bool) (z : ℚ) : ℚ :=
  s.foldl (fun z b => if b then zoom_in z else zoom_out z) z

theorem zoom_in_mem (z : ℚ) (hlo : 1/100 ≤ z) (hhi : z ≤ 64) :
    1/100 ≤ zoom_in z ∧ zoom_in z ≤ 64 := by
  unfold zoom_in
  constructor
  · apply le_min _ (by norm_num)
    nlinarith
  · exact min_le_right _ _

theorem zoom_out_mem (z : ℚ) (hlo : 1/100 ≤ z) (hhi : z ≤ 64) :
    1/100 ≤ zoom_out z ∧ zoom_out z ≤ 64 := by
  unfold zoom_out
  constructor
  · exact le_max_right _ _
  · apply max_le _ (by norm_num)
    nlinarith

theorem applyZoomSeq_mem (s : List Bool) (z : ℚ) (hlo : 1/100 ≤ z) (hhi : z ≤ 64) :
    1/100 ≤ applyZoomSeq s z ∧ applyZoomSeq s z ≤ 64 := by
  induction s generalizing z with
  | nil => exact ⟨hlo, hhi⟩
  | cons b t ih =>
    have hstep : 1/100 ≤ (if b then zoom_in z else zoom_out z) ∧
        (if b then zoom_in z else zoom_out z) ≤ 64 := by
      cases b
      · simpa using zoom_out_mem z hlo hhi
      · simpa using zoom_in_mem z hlo hhi
    simpa [applyZoomSeq] using ih _ hstep.1 hstep.2

theorem zoom_in_iter (n : ℕ) (z : ℚ) (hpos : 0 < z) (h : z * (5/4) ^ n ≤ 64) :
    zoom_in^[n] z = z * (5/4) ^ n := by
  induction n generalizing z with
  | zero => simp
  | succ n ih =>
    have hone : (1:ℚ) ≤ (5/4) ^ n := one_le_pow₀ (by norm_num)
    have hz1 : z * (5/4) ≤ z * ((5/4) * (5/4) ^ n) := by nlinarith
    have hz2 : z * (5/4) ≤ 64 := le_trans hz1 (by rw [pow_succ] at h; nlinarith [h])
    have hstep : zoom_in z = z * (5/4) := min_eq_left hz2
    rw [Function.iterate_succ_apply, hstep, ih (z * (5/4)) (by nlinarith)]
    · ring
    · calc z * (5/4) * (5/4) ^ n = z * (5/4) ^ (n + 1) := by ring
        _ ≤ 64 := h

theorem zoom_out_iter (n : ℕ) (z : ℚ) (hlo : 1/100 ≤ z) :
    zoom_out^[n] (z * (5/4) ^ n) = z := by
  induction n generalizing z with
  | zero => simp
  | succ n ih =>
    have hone : (1:ℚ) ≤ (5/4) ^ n := one_le_pow₀ (by norm_num)
    have hge : 1/100 ≤ z * (5/4) ^ n := by nlinarith
    have hdiv : z * (5/4) ^ (n + 1) / (5/4) = z * (5/4) ^ n := by
      field_simp; ring
    have hstep : zoom_out (z * (5/4) ^ (n + 1)) = z * (5/4) ^ n := by
      unfold zoom_out
      rw [hdiv]
      exact max_eq_left hge
    rw [Function.iterate_succ_apply, hstep, ih z hlo]

/-- C5 (amended): starting from a zoom already inside [0.01, 64], every
sequence of zoom_in / zoom_out calls keeps the zoom inside [0.01, 64]; and
zoom_in applied n times followed by zoom_out applied n times returns exactly
the original zoom provided the n zoom-in steps never hit the upper clamp
(z * 1.25 ^ n ≤ 64).  Without that proviso the round trip is lossy (see the
counterexample: the upper clamp at 64 forgets the pre-clamp value). -/
theorem c5_zoom_amended (z : ℚ) (hlo : 1/100 ≤ z) (hhi : z ≤ 64) :
    (∀ s : List Bool, 1/100 ≤ applyZoomSeq s z ∧ applyZoomSeq s z ≤ 64) ∧
    (∀ n : ℕ, z * (5/4) ^ n ≤ 64 → zoom_out^[n] (zoom_in^[n] z) = z) := by
  constructor
  · intro s; exact applyZoomSeq_mem s z hlo hhi
  · intro n hn
    rw [zoom_in_iter n z (by linarith) hn, zoom_out_iter n z hlo]

/-- C5 witness: a concrete run of the amended statement at zoom 2 with a
three-step gesture sequence and a clamping-free double zoom-in round trip. -/
theorem c5_zoom_amended_witness :
    (1/100 ≤ applyZoomSeq [true, false, false] 2 ∧
      applyZoomSeq [true, false, false] 2 ≤ 64) ∧
    zoom_out^[2] (zoom_in^[2] 2) = 2 := by
  refine ⟨(c5_zoom_amended 2 (by norm_num) (by norm_num)).1 [true, false, false], ?_⟩
  exact (c5_zoom_amended 2 (by norm_num) (by norm_num)).2 2 (by norm_num)

/-- C5 counterexample: zoom 60 lies inside [0.01, 64], yet one zoom_in
followed by one zoom_out yields 51.2, not 60 (far outside any floating-point
tolerance): zoom_in clamps 75 down to 64 and zoom_out then divides 64 by
1.25.  So equal numbers of zoom_in and zoom_out calls do not in general
return the zoom to the original value. -/
theorem c5_zoom_counterexample :
    zoom_out (zoom_in 60) = 256/5 ∧ ¬ |zoom_out (zoom_in 60) - 60| ≤ 1/1000 := by
  have h : zoom_out (zoom_in 60) = 256/5 := by
    unfold zoom_in zoom_out
    norm_num
  refine ⟨h, ?_⟩
  rw [h]
  norm_num [abs_sub_lt_iff, abs_le]

/-- Cache key: (image identity id(im), zoom rounded to six decimals). -/
abbrev CacheKey : Type := ℕ × ℚ

/-- The display cache: an insertion-ordered association list modelling
collections.OrderedDict, front = oldest position, back = most recent. -/
abbrev Cache : Type := List (CacheKey × Img)

/-- Dictionary lookup: the value stored under a key, if present. -/
def cacheLookup (c : Cache) (k : CacheKey) : Option Img :=
  (c.find? fun e => decide (e.1 = k)).map fun e => e.2

/-- OrderedDict.move_to_end(key): the key's entry moves to the most-recently-
used (back) position; all other entries keep their relative order. -/
def moveToEnd (c : Cache) (k : CacheKey) : Cache :=
  (c.filter fun e => decide (e.1 ≠ k)) ++ (c.filter fun e => decide (e.1 = k))

/-- Modelled from the spec: PIL's Image.resize(LANCZOS) is external library
code absent from this repository; the spec relies only on the routine
returning a bitmap of exactly the requested dimensions with resampled source
content, which is modelled here by coordinate subsampling. -/
def resizeImg (im : Img) (nw nh : ℕ) : Img :=
  { width := nw, height := nh,
    pix := fun x y => im.pix (x * im.width / max 1 nw) (y * im.height / max 1 nh) }

/-- Display bitmap width on a cache miss: max(1, int(im.width * zoom)). -/
def dispW (im : Img) (zoom : ℚ) : ℕ := (max 1 (pyInt (im.width * zoom))).toNat

/-- Display bitmap height on a cache miss: max(1, int(im.height * zoom)). -/
def dispH (im : Img) (zoom : ℚ) : ℕ := (max 1 (pyInt (im.height * zoom))).toNat

/-- image_utils.get_disp_image_scaled (equally SRCompareApp._get_disp_image):
look up (id(im), round(zoom, 6)); on a hit move the entry to the
most-recently-used position and return it; on a miss resample the source to
max(1, int(w*zoom)) by max(1, int(h*zoom)), evicting the oldest entry first
when the cache is full.  Returns the bitmap with the updated cache state;
imId models Python id(im). -/
def get_disp_image_scaled (im : Option Img) (imId : ℕ) (zoom : ℚ)
    (cache : Cache) (maxCacheSize : ℕ) : Option Img × Cache :=
  match im with
  | none => (none, cache)
  | some im =>
    match cacheLookup cache (imId, pyRound6 zoom) with
    | some disp => (some disp, moveToEnd cache (imId, pyRound6 zoom))
    | none =>
      let disp := resizeImg im (dispW im zoom) (dispH im zoom)
      let cache' := if maxCacheSize ≤ cache.length then cache.tail else cache
      (some disp, cache' ++ [((imId, pyRound6 zoom), disp)])

theorem one_le_dispW (im : Img) (zoom : ℚ) : 1 ≤ dispW im zoom := by
  unfold dispW
  rcases le_total 1 (pyInt ((im.width : ℚ) * zoom)) with h | h
  · rw [max_eq_right h]; omega
  · rw [max_eq_left h]; rfl

theorem one_le_dispH (im : Img) (zoom : ℚ) : 1 ≤ dispH im zoom := by
  unfold dispH
  rcases le_total 1 (pyInt ((im.height : ℚ) * zoom)) with h | h
  · rw [max_eq_right h]; omega
  · rw [max_eq_left h]; rfl

/-- C6 (amended): on a cache miss the computed bitmap has size
max(1, floor(width * zoom)) by max(1, floor(height * zoom)) — Python int()
truncation, which for the nonnegative product is the floor, not round() —
so both result dimensions are at least 1. -/
theorem c6_miss_size (im : Img) (imId : ℕ) (zoom : ℚ) (cache : Cache) (m : ℕ)
    (hz : 0 ≤ zoom)
    (hmiss : cacheLookup cache (imId, pyRound6 zoom) = none) :
    ∃ disp : Img,
      (get_disp_image_scaled (some im) imId zoom cache m).1 = some disp ∧
      disp.width = max 1 (Int.toNat ⌊(im.width : ℚ) * zoom⌋) ∧
      disp.height = max 1 (Int.toNat ⌊(im.height : ℚ) * zoom⌋) ∧
      1 ≤ disp.width ∧ 1 ≤ disp.height := by
  refine ⟨resizeImg im (dispW im zoom) (dispH im zoom), ?_, ?_, ?_,
    one_le_dispW im zoom, one_le_dispH im zoom⟩
  · simp [get_disp_image_scaled, hmiss]
  · have hnn : 0 ≤ (im.width : ℚ) * zoom := mul_nonneg (by positivity) hz
    simp [resizeImg, dispW, pyInt, hnn]
    omega
  · have hnn : 0 ≤ (im.height : ℚ) * zoom := mul_nonneg (by positivity) hz
    simp [resizeImg, dispH, pyInt, hnn]
    omega

/-- An arbitrary concrete 3 by 3 image used in witnesses and counterexamples. -/
def img3 : Img := ⟨3, 3, fun _ _ => ⟨0, 0, 0⟩⟩

/-- C6 witness: a concrete miss on the empty cache with a 3 by 3 image at
zoom 0.9 produces a bitmap of the stated floor-based dimensions. -/
theorem c6_miss_size_witness :
    ∃ disp : Img,
      (get_disp_image_scaled (some img3) 7 (9/10) [] 100).1 = some disp ∧
      disp.width = max 1 (Int.toNat ⌊(img3.width : ℚ) * (9/10)⌋) ∧
      disp.height = max 1 (Int.toNat ⌊(img3.height : ℚ) * (9/10)⌋) ∧
      1 ≤ disp.width ∧ 1 ≤ disp.height :=
  c6_miss_size img3 7 (9/10) [] 100 (by norm_num) rfl

/-- C6 counterexample: with width 3 and zoom 0.9 the claimed formula with
round() gives max(1, round(2.7)) = 3, but the code's int() truncation
produces a bitmap of width 2, so the claimed size formula is wrong. -/
theorem c6_counterexample :
    ((get_disp_image_scaled (some img3) 7 (9/10) [] 100).1).map Img.width = some 2 ∧
    max 1 (Int.toNat (round ((3 : ℚ) * (9/10)))) = 3 ∧ (2 : ℕ) ≠ 3 := by
  refine ⟨by decide, by decide, by decide⟩

/-- One scaled-bitmap request: the image, its Python identity, and the zoom. -/
structure Req where
  img : Img
  imId : ℕ
  zoom : ℚ

/-- The cache key a request produces: (id(im), round(zoom, 6)). -/
def keyOfReq (r : Req) : CacheKey := (r.imId, pyRound6 r.zoom)

/-- Run a sequence of requests through the display cache at the default
maximum size MAX_CACHE_SIZE = 100. -/
def runRequests (rs : List Req) (c : Cache) : Cache :=
  rs.foldl (fun c r => (get_disp_image_scaled (some r.img) r.imId r.zoom c 100).2) c

/-- The insertion-ordered key list of a cache state. -/
def keysOf (c : Cache) : List CacheKey := c.map fun e => e.1

theorem moveToEnd_length (c : Cache) (k : CacheKey) :
    (moveToEnd c k).length = c.length := by
  rw [moveToEnd, List.length_append]
  have hpred : (fun e : CacheKey × Img => decide (e.1 ≠ k)) =
      fun e : CacheKey × Img => ! decide (e.1 = k) := by
    funext e; exact decide_not
  rw [hpred, Nat.add_comm]
  exact (List.length_eq_length_filter_add (fun e : CacheKey × Img => decide (e.1 = k))).symm

theorem step_length_le (im : Img) (i : ℕ) (z : ℚ) (c : Cache)
    (h : c.length ≤ 100) :
    ((get_disp_image_scaled (some im) i z c 100).2).length ≤ 100 := by
  unfold get_disp_image_scaled
  cases hl : cacheLookup c (i, pyRound6 z) with
  | some d =>
    simpa [hl, moveToEnd_length] using h
  | none =>
    by_cases hf : 100 ≤ c.length <;>
      simp [hl, hf, List.length_tail] <;> omega

theorem runRequests_length (rs : List Req) (c : Cache) (h : c.length ≤ 100) :
    (runRequests rs c).length ≤ 100 := by
  induction rs generalizing c with
  | nil => simpa [runRequests] using h
  | cons r t ih =>
    rw [runRequests, List.foldl_cons]
    exact ih _ (step_length_le r.img r.imId r.zoom c h)

theorem mem_keysOf (c : Cache) (k : CacheKey) :
    k ∈ keysOf c ↔ ∃ e, e ∈ c ∧ e.1 = k := by
  simp [keysOf, List.mem_map]

theorem cacheLookup_isSome (c : Cache) (k : CacheKey) :
    (cacheLookup c k).isSome = true ↔ k ∈ keysOf c := by
  rw [mem_keysOf, cacheLookup]
  rw [show ∀ x : Option (CacheKey × Img),
        (Option.map (fun e => e.2) x).isSome = x.isSome from fun x => by
      cases x <;> rfl]
  rw [List.find?_isSome]
  constructor
  · rintro ⟨e, he, hk⟩; exact ⟨e, he, by simpa using hk⟩
  · rintro ⟨e, he, hk⟩; exact ⟨e, he, by simpa using hk⟩

theorem cacheLookup_eq_none (c : Cache) (k : CacheKey) :
    cacheLookup c k = none ↔ k ∉ keysOf c := by
  rw [← Option.not_isSome_iff_eq_none, cacheLookup_isSome]

theorem getLast_keysOf_moveToEnd (c : Cache) (k : CacheKey)
    (h : (cacheLookup c k).isSome = true) :
    (keysOf (moveToEnd c k)).getLast? = some k := by
  obtain ⟨e, he, hk⟩ := (mem_keysOf c k).mp ((cacheLookup_isSome c k).mp h)
  have hmemf : e ∈ c.filter fun e => decide (e.1 = k) :=
    List.mem_filter.mpr ⟨he, by simpa using hk⟩
  have hne : (c.filter fun e => decide (e.1 = k)) ≠ [] := by
    intro hnil; rw [hnil] at hmemf; cases hmemf
  have hne' : keysOf (c.filter fun e => decide (e.1 = k)) ≠ [] := by
    simpa [keysOf] using hne
  rw [moveToEnd, keysOf, List.map_append]
  have hlhs : keysOf (c.filter fun e => decide (e.1 = k)) =
      (c.filter fun e => decide (e.1 = k)).map fun e => e.1 := rfl
  rw [List.getLast?_append_of_ne_nil _ (by simpa [keysOf] using hne' )]
  rw [List.getLast?_eq_getLast _ (by simpa [keysOf] using hne' )]
  congr 1
  have hmem := List.getLast_mem (l := (c.filter fun e => decide (e.1 = k)).map fun e => e.1)
    (by simpa [keysOf] using hne' )
  obtain ⟨e3, he3, hk3⟩ := List.mem_map.mp hmem
  have hf := List.mem_filter.mp he3
  rw [← hk3]
  simpa using hf.2

/-- Hit promotion: when the requested key is present, the updated cache has
that key in the most-recently-used (last) position. -/
theorem hit_promotes (im : Img) (i : ℕ) (z : ℚ) (c : Cache)
    (h : (cacheLookup c (i, pyRound6 z)).isSome = true) :
    (keysOf ((get_disp_image_scaled (some im) i z c 100).2)).getLast? =
      some (i, pyRound6 z) := by
  obtain ⟨d, hd⟩ := Option.isSome_iff_exists.mp h
  unfold get_disp_image_scaled
  simp only [hd]
  exact getLast_keysOf_moveToEnd c _ h

/-- Ghost instrumentation of the cache key dynamics: the key list in cache
order together with a last-touch timestamp per key and a logical clock.
Both insertion and a cache hit touch the requested key. -/
structure GState where
  keys : List CacheKey
  touch : CacheKey → ℕ
  clock : ℕ

/-- The ghost state of the initially empty cache. -/
def emptyG : GState := ⟨[], fun _ => 0, 0⟩

/-- One instrumented request: the same key dynamics as get_disp_image_scaled
at maximum size 100, with the requested key time-stamped. -/
def gStep (s : GState) (k : CacheKey) : GState :=
  if k ∈ s.keys then
    ⟨(s.keys.filter fun a => decide (a ≠ k)) ++ (s.keys.filter fun a => decide (a = k)),
      fun a => if a = k then s.clock else s.touch a, s.clock + 1⟩
  else
    ⟨(if 100 ≤ s.keys.length then s.keys.tail else s.keys) ++ [k],
      fun a => if a = k then s.clock else s.touch a, s.clock + 1⟩

/-- Run a key sequence through the instrumented cache model. -/
def gRun (ks : List CacheKey) (s : GState) : GState := ks.foldl gStep s

theorem map_fst_filter (c : Cache) (p : CacheKey → Bool) :
    (c.filter fun e => p e.1).map (fun e => e.1) =
      (c.map fun e => e.1).filter p := by
  induction c with
  | nil => rfl
  | cons e t ih =>
    by_cases h : p e.1 = true <;> simp [List.filter_cons, h] at ih ⊢ <;>
      exact ih

theorem map_fst_tail (c : Cache) :
    (c.tail.map fun e => e.1) = (c.map fun e => e.1).tail := by
  cases c <;> rfl

/-- The plain cache step and the instrumented step produce the same key
list: the ghost model is a faithful projection of the source embedding. -/
theorem keysOf_step (im : Img) (i : ℕ) (z : ℚ) (c : Cache) (s : GState)
    (hs : s.keys = keysOf c) :
    (gStep s (i, pyRound6 z)).keys =
      keysOf ((get_disp_image_scaled (some im) i z c 100).2) := by
  by_cases h : (i, pyRound6 z) ∈ keysOf c
  · obtain ⟨d, hd⟩ :=
      Option.isSome_iff_exists.mp ((cacheLookup_isSome c _).mpr h)
    unfold get_disp_image_scaled gStep
    rw [hs]
    simp only [hd, if_pos h]
    simp only [moveToEnd, keysOf, List.map_append]
    rw [map_fst_filter c (fun a => decide (a ≠ (i, pyRound6 z))),
      map_fst_filter c (fun a => decide (a = (i, pyRound6 z)))]
  · have hn : cacheLookup c (i, pyRound6 z) = none :=
      (cacheLookup_eq_none c _).mpr h
    unfold get_disp_image_scaled gStep
    rw [hs]
    simp only [hn, if_neg h]
    simp only [keysOf, List.map_append, List.length_map]
    by_cases hf : 100 ≤ c.length
    · rw [if_pos hf, if_pos hf, map_fst_tail]
      rfl
    · rw [if_neg hf, if_neg hf]
      rfl

/-- Running requests through the cache and running their keys through the
ghost model agree on the resulting key list. -/
theorem keysOf_run (rs : List Req) (c : Cache) (s : GState)
    (hs : s.keys = keysOf c) :
    (gRun (rs.map keyOfReq) s).keys = keysOf (runRequests rs c) := by
  induction rs generalizing c s with
  | nil => simpa [gRun, runRequests] using hs
  | cons r t ih =>
    rw [List.map_cons, gRun, runRequests, List.foldl_cons, List.foldl_cons]
    exact ih _ _ (keysOf_step r.img r.imId r.zoom c s hs)

/-- The invariant of the ghost model: the key list is strictly ordered by
last-touch time, and every touch time is below the clock. -/
def GInv (s : GState) : Prop :=
  s.keys.Pairwise (fun a b => s.touch a < s.touch b) ∧
    ∀ k ∈ s.keys, s.touch k < s.clock

theorem emptyG_inv : GInv emptyG := by
  constructor
  · exact List.Pairwise.nil
  · intro k hk; cases hk

theorem gInv_nodup (s : GState) (h : GInv s) : s.keys.Nodup :=
  h.1.imp fun hlt => by
    intro he; rw [he] at hlt; exact lt_irrefl _ hlt

theorem nodup_filter_eq (l : List CacheKey) (k : CacheKey) (hnd : l.Nodup)
    (hmem : k ∈ l) : (l.filter fun a => decide (a = k)) = [k] := by
  induction l with
  | nil => cases hmem
  | cons e t ih =>
    rw [List.filter_cons]
    by_cases hek : e = k
    · subst hek
      rw [if_pos (by simp)]
      have hnot : e ∉ t := (List.nodup_cons.mp hnd).1
      have hnil : (t.filter fun a => decide (a = e)) = [] := by
        rw [List.filter_eq_nil_iff]
        intro a ha hd
        exact hnot (by rwa [of_decide_eq_true hd] at ha)
      rw [hnil]
    · rw [if_neg (by simp [hek])]
      have hmt : k ∈ t := by
        rcases List.mem_cons.mp hmem with h1 | h1
        · exact absurd h1.symm hek
        · exact h1
      exact ih (List.nodup_cons.mp hnd).2 hmt

theorem gStep_inv (s : GState) (k : CacheKey) (h : GInv s) :
    GInv (gStep s k) := by
  obtain ⟨hp, hc⟩ := h
  unfold gStep
  by_cases hm : k ∈ s.keys
  · rw [if_pos hm]
    have hfeq : (s.keys.filter fun a => decide (a = k)) = [k] :=
      nodup_filter_eq s.keys k (gInv_nodup s ⟨hp, hc⟩) hm
    constructor
    · rw [List.pairwise_append]
      refine ⟨?_, ?_, ?_⟩
      · have hsub := hp.sublist (List.filter_sublist (l := s.keys)
          (p := fun a => decide (a ≠ k)))
        refine hsub.imp_of_mem ?_
        intro a b ha hb hab
        have hak : a ≠ k := by
          have := (List.mem_filter.mp ha).2
          simpa using this
        have hbk : b ≠ k := by
          have := (List.mem_filter.mp hb).2
          simpa using this
        simpa [hak, hbk] using hab
      · rw [hfeq]
        exact List.pairwise_singleton _ _
      · intro a ha b hb
        rw [hfeq] at hb
        have hbk : b = k := by simpa using hb
        have hak : a ≠ k := by
          have := (List.mem_filter.mp ha).2
          simpa using this
        have hat : a ∈ s.keys := (List.mem_filter.mp ha).1
        simp only [hak, if_neg hak, hbk, if_pos rfl]
        exact hc a hat
    · intro a ha
      rcases List.mem_append.mp ha with h1 | h1
      · have hak : a ≠ k := by
          have := (List.mem_filter.mp h1).2
          simpa using this
        have hat : a ∈ s.keys := (List.mem_filter.mp h1).1
        simp only [hak, if_neg hak]
        exact Nat.lt_succ_of_lt (hc a hat)
      · rw [hfeq] at h1
        have : a = k := by simpa using h1
        simp only [this, if_pos rfl]
        exact Nat.lt_succ_self _
  · rw [if_neg hm]
    have hpre : (if 100 ≤ s.keys.length then s.keys.tail else s.keys).Sublist s.keys := by
      by_cases hf : 100 ≤ s.keys.length
      · rw [if_pos hf]; exact List.tail_sublist _
      · rw [if_neg hf]
    constructor
    · rw [List.pairwise_append]
      refine ⟨?_, List.pairwise_singleton _ _, ?_⟩
      · have hsub := hp.sublist hpre
        refine hsub.imp_of_mem ?_
        intro a b ha hb hab
        have hak : a ≠ k := fun he => hm (he ▸ hpre.subset ha)
        have hbk : b ≠ k := fun he => hm (he ▸ hpre.subset hb)
        simpa [hak, hbk] using hab
      · intro a ha b hb
        have hbk : b = k := by simpa using hb
        have hak : a ≠ k := fun he => hm (he ▸ hpre.subset ha)
        simp only [hak, if_neg hak, hbk, if_pos rfl]
        exact hc a (hpre.subset ha)
    · intro a ha
      rcases List.mem_append.mp ha with h1 | h1
      · have hak : a ≠ k := fun he => hm (he ▸ hpre.subset h1)
        simp only [hak, if_neg hak]
        exact Nat.lt_succ_of_lt (hc a (hpre.subset h1))
      · have : a = k := by simpa using h1
        simp only [this, if_pos rfl]
        exact Nat.lt_succ_self _

theorem gRun_inv (ks : List CacheKey) (s : GState) (h : GInv s) :
    GInv (gRun ks s) := by
  induction ks generalizing s with
  | nil => exact h
  | cons k t ih =>
    rw [gRun, List.foldl_cons]
    exact ih _ (gStep_inv s k h)

/-- In a touch-ordered state the front entry has the minimal touch time. -/
theorem head_min_touch (s : GState) (h : GInv s) :
    ∀ a ∈ s.keys, s.touch s.keys.headI ≤ s.touch a := by
  have hp := h.1
  revert hp
  cases hk : s.keys with
  | nil =>
    intro hp a ha
    cases ha
  | cons e t =>
    intro hp a ha
    rcases List.mem_cons.mp ha with rfl | hat
    · simp [List.headI]
    · simp only [List.headI]
      exact le_of_lt ((List.pairwise_cons.mp hp).1 a hat)

/-- C1 (amended): starting from the empty cache, (i) the display cache never
holds more than MAX_CACHE_SIZE = 100 entries; (ii) a hit promotes the
requested entry to the most-recently-used (last) position; (iii) the entry
evicted on overflow is the front entry of the cache order, which is the
least-recently-touched entry, where both insertion and cache hits count as
touches (stated over the instrumented key model); (iv) the instrumented key
model agrees with the embedded cache on every run, grounding (iii).  The
original claim's eviction rule — oldest by insertion order among entries not
touched since insertion — is refuted by the counterexample: a touched entry
can still be the one evicted. -/
theorem c1_cache_amended :
    (∀ rs : List Req, (runRequests rs []).length ≤ 100) ∧
    (∀ (im : Img) (i : ℕ) (z : ℚ) (c : Cache),
        (cacheLookup c (i, pyRound6 z)).isSome = true →
        (keysOf ((get_disp_image_scaled (some im) i z c 100).2)).getLast? =
          some (i, pyRound6 z)) ∧
    (∀ (ks : List CacheKey) (k : CacheKey),
        k ∉ (gRun ks emptyG).keys →
        100 ≤ (gRun ks emptyG).keys.length →
        (gStep (gRun ks emptyG) k).keys = (gRun ks emptyG).keys.tail ++ [k] ∧
        ∀ a ∈ (gRun ks emptyG).keys,
          (gRun ks emptyG).touch (gRun ks emptyG).keys.headI ≤
            (gRun ks emptyG).touch a) ∧
    (∀ (rs : List Req) (c : Cache),
        (gRun (rs.map keyOfReq) ⟨keysOf c, fun _ => 0, 0⟩).keys =
          keysOf (runRequests rs c)) := by
  refine ⟨?_, ?_, ?_, ?_⟩
  · intro rs
    exact runRequests_length rs [] (by simp)
  · intro im i z c hsome
    exact hit_promotes im i z c hsome
  · intro ks k hmem hlen
    constructor
    · unfold gStep
      rw [if_neg hmem, if_pos hlen]
    · exact head_min_touch _ (gRun_inv ks emptyG emptyG_inv)
  · intro rs c
    exact keysOf_run rs c _ rfl

/-- A concrete one-pixel image used in cache runs. -/
def unitImg : Img := ⟨1, 1, fun _ _ => ⟨0, 0, 0⟩⟩

/-- A concrete key sequence of one hundred distinct keys. -/
def keys100 : List CacheKey := (List.range 100).map fun i => (i, (1 : ℚ))

/-- C1 witness: the amended statement instantiated at concrete runs — the
bound after a singleton run, hit promotion on a one-entry cache, the eviction
shape and minimality after one hundred distinct keys, and the model
correspondence on an empty run. -/
theorem c1_cache_amended_witness :
    (runRequests [⟨unitImg, 1, 1⟩] []).length ≤ 100 ∧
    (keysOf ((get_disp_image_scaled (some unitImg) 1 1
        [((1, pyRound6 1), unitImg)] 100).2)).getLast? = some (1, pyRound6 1) ∧
    ((gStep (gRun keys100 emptyG) (200, 1)).keys =
        (gRun keys100 emptyG).keys.tail ++ [(200, 1)] ∧
      ∀ a ∈ (gRun keys100 emptyG).keys,
        (gRun keys100 emptyG).touch (gRun keys100 emptyG).keys.headI ≤
          (gRun keys100 emptyG).touch a) ∧
    (gRun (([] : List Req).map keyOfReq) ⟨keysOf [], fun _ => 0, 0⟩).keys =
      keysOf (runRequests [] []) := by
  set_option maxRecDepth 20000 in
  refine ⟨c1_cache_amended.1 [⟨unitImg, 1, 1⟩],
    c1_cache_amended.2.1 unitImg 1 1 [((1, pyRound6 1), unitImg)] (by decide),
    c1_cache_amended.2.2.1 keys100 (200, 1) (by decide) (by decide),
    c1_cache_amended.2.2.2 [] []⟩

/-- A request sequence of 102 requests: key 1 inserted then immediately hit
(touched after insertion), then 99 fresh keys 2..100 filling the cache to
exactly 100 entries, then fresh key 101 forcing one eviction. -/
def c1Reqs : List Req :=
  ⟨unitImg, 1, 1⟩ :: ⟨unitImg, 1, 1⟩ ::
    (((List.range 99).map fun i => ⟨unitImg, i + 2, 1⟩) ++ [⟨unitImg, 101, 1⟩])

/-- C1 counterexample: run c1Reqs from the empty cache.  At the overflow the
oldest entry by insertion order among entries not touched since insertion is
key 2 (keys 2..100 were never hit), so under the claimed eviction rule key 2
would be evicted and key 1 — touched by a hit after insertion — retained.
The code does the opposite: key 1 is evicted and key 2 survives, refuting the
claimed rule at this concrete input. -/
theorem c1_cache_counterexample :
    (1, pyRound6 1) ∉ keysOf (runRequests c1Reqs []) ∧
    (2, pyRound6 1) ∈ keysOf (runRequests c1Reqs []) := by
  set_option maxRecDepth 40000 in
  constructor
  · decide
  · decide

/-- Sum over all pixels of the squared channel difference for one channel,
in exact arithmetic (the code's float32 arithmetic modelled exactly). -/
def sqDiffSum (a b : Img) (ch : Pix → ℕ) : ℚ :=
  ∑ x ∈ Finset.range a.width, ∑ y ∈ Finset.range a.height,
    ((ch (a.pix x y) : ℚ) - (ch (b.pix x y) : ℚ)) ^ 2

/-- np.mean(squared_diff, axis=(0,1)) for one channel: the mean squared
difference over the full image. -/
def msePerChannel (a b : Img) (ch : Pix → ℕ) : ℚ :=
  sqDiffSum a b ch / ((a.width : ℚ) * (a.height : ℚ))

/-- mse = np.mean(mse_per_channel): the three per-channel MSEs averaged. -/
def mse (a b : Img) : ℚ :=
  (msePerChannel a b Pix.r + msePerChannel a b Pix.g + msePerChannel a b Pix.b) / 3

/-- The published result of a PSNR computation: a finite value or the
positive infinity returned for identical images. -/
inductive PsnrResult where
  | val : ℝ → PsnrResult
  | inf : PsnrResult

/-- The finite PSNR formula of the code: 20 * log10(MAX_8BIT_PIXEL / sqrt(mse))
with MAX_8BIT_PIXEL = 255. -/
noncomputable def psnrOfMse (m : ℚ) : ℝ :=
  20 * Real.logb 10 (255 / Real.sqrt ((m : ℝ)))

/-- image_utils.calculate_psnr_sync (and the line-for-line identical
SRCompareApp._calculate_psnr_sync): returns 0.0 when the sizes differ;
otherwise computes the per-channel MSE, averages the channels, and returns
positive infinity when the average is zero, else 20*log10(255/sqrt(mse)). -/
noncomputable def calculate_psnr_sync (a b : Img) : PsnrResult :=
  if a.size ≠ b.size then .val 0
  else if mse a b = 0 then .inf
  else .val (psnrOfMse (mse a b))

theorem sqDiffSum_nonneg (a b : Img) (ch : Pix → ℕ) : 0 ≤ sqDiffSum a b ch := by
  refine Finset.sum_nonneg fun x hx => Finset.sum_nonneg fun y hy => ?_
  positivity

theorem mse_eq_div (a b : Img) :
    mse a b = (sqDiffSum a b Pix.r + sqDiffSum a b Pix.g + sqDiffSum a b Pix.b) /
      (3 * ((a.width : ℚ) * (a.height : ℚ))) := by
  rw [mse, msePerChannel, msePerChannel, msePerChannel, div_add_div_same,
    div_add_div_same, div_div]
  ring_nf

theorem sqDiffSum_eq_zero_iff (a b : Img) (ch : Pix → ℕ) :
    sqDiffSum a b ch = 0 ↔
      ∀ x < a.width, ∀ y < a.height, ch (a.pix x y) = ch (b.pix x y) := by
  rw [sqDiffSum, Finset.sum_eq_zero_iff_of_nonneg
    (fun x hx => Finset.sum_nonneg fun y hy => by positivity)]
  constructor
  · intro h x hx y hy
    have hx' : x ∈ Finset.range a.width := Finset.mem_range.mpr hx
    have hrow := h x hx'
    rw [Finset.sum_eq_zero_iff_of_nonneg (fun y hy => by positivity)] at hrow
    have := hrow y (Finset.mem_range.mpr hy)
    have hsub := sq_eq_zero_iff.mp this
    have := sub_eq_zero.mp hsub
    exact_mod_cast this
  · intro h x hx
    refine Finset.sum_eq_zero fun y hy => ?_
    rw [h x (Finset.mem_range.mp hx) y (Finset.mem_range.mp hy)]
    ring

theorem mse_eq_zero_iff (a b : Img) (hw : 0 < a.width) (hh : 0 < a.height) :
    mse a b = 0 ↔
      ∀ x < a.width, ∀ y < a.height, a.pix x y = b.pix x y := by
  have hwh : (3 : ℚ) * ((a.width : ℚ) * (a.height : ℚ)) ≠ 0 := by
    have : (0 : ℚ) < (a.width : ℚ) * (a.height : ℚ) := by
      have h1 : (0 : ℚ) < (a.width : ℚ) := by exact_mod_cast hw
      have h2 : (0 : ℚ) < (a.height : ℚ) := by exact_mod_cast hh
      positivity
    positivity
  rw [mse_eq_div, div_eq_zero_iff]
  have hr := sqDiffSum_nonneg a b Pix.r
  have hg := sqDiffSum_nonneg a b Pix.g
  have hb := sqDiffSum_nonneg a b Pix.b
  constructor
  · rintro (hnum | hden)
    · have h1 : sqDiffSum a b Pix.r = 0 := by linarith
      have h2 : sqDiffSum a b Pix.g = 0 := by linarith
      have h3 : sqDiffSum a b Pix.b = 0 := by linarith
      intro x hx y hy
      have e1 := (sqDiffSum_eq_zero_iff a b Pix.r).mp h1 x hx y hy
      have e2 := (sqDiffSum_eq_zero_iff a b Pix.g).mp h2 x hx y hy
      have e3 := (sqDiffSum_eq_zero_iff a b Pix.b).mp h3 x hx y hy
      cases hpa : a.pix x y
      cases hpb : b.pix x y
      rw [hpa, hpb] at e1 e2 e3
      simp_all
    · exact absurd hden hwh
  · intro h
    left
    have h1 : sqDiffSum a b Pix.r = 0 :=
      (sqDiffSum_eq_zero_iff a b Pix.r).mpr fun x hx y hy => by rw [h x hx y hy]
    have h2 : sqDiffSum a b Pix.g = 0 :=
      (sqDiffSum_eq_zero_iff a b Pix.g).mpr fun x hx y hy => by rw [h x hx y hy]
    have h3 : sqDiffSum a b Pix.b = 0 :=
      (sqDiffSum_eq_zero_iff a b Pix.b).mpr fun x hx y hy => by rw [h x hx y hy]
    rw [h1, h2, h3]
    ring

/-- C2: for same-sized nonempty images the similarity computation returns
positive infinity exactly when the MSE — the per-channel mean squared
difference over the full image, averaged across the three channels — is
zero, which happens exactly when the two images are pixel-identical, and
otherwise returns 20 * log10(255 / sqrt(MSE)); in particular
PSNR(A, A) is positive infinity. -/
theorem c2_psnr_formula (a b : Img) (hw : 0 < a.width) (hh : 0 < a.height)
    (hsz : a.size = b.size) :
    (calculate_psnr_sync a b =
      if mse a b = 0 then PsnrResult.inf
      else PsnrResult.val (20 * Real.logb 10 (255 / Real.sqrt ((mse a b : ℝ))))) ∧
    (mse a b = 0 ↔ imgEq a b) ∧
    calculate_psnr_sync a a = PsnrResult.inf := by
  have hweq : a.width = b.width := congrArg Prod.fst hsz
  have hheq : a.height = b.height := congrArg Prod.snd hsz
  refine ⟨?_, ?_, ?_⟩
  · rw [calculate_psnr_sync, if_neg (by simp [hsz])]
    rfl
  · rw [mse_eq_zero_iff a b hw hh, imgEq]
    constructor
    · intro h
      exact ⟨hweq, hheq, h⟩
    · intro h
      exact h.2.2
  · rw [calculate_psnr_sync, if_neg (by simp)]
    rw [if_pos ((mse_eq_zero_iff a a hw hh).mpr fun x hx y hy => rfl)]

/-- C2 witness: the formula instantiated at a concrete pair of same-sized
images (the 3 by 3 zero image against itself). -/
theorem c2_psnr_formula_witness :
    (calculate_psnr_sync img3 img3 =
      if mse img3 img3 = 0 then PsnrResult.inf
      else PsnrResult.val (20 * Real.logb 10 (255 / Real.sqrt ((mse img3 img3 : ℝ))))) ∧
    (mse img3 img3 = 0 ↔ imgEq img3 img3) ∧
    calculate_psnr_sync img3 img3 = PsnrResult.inf :=
  c2_psnr_formula img3 img3 (by decide) (by decide) rfl

/-- Two's-complement wrap into the int16 range, modelling NumPy int16
arithmetic. -/
def wrap16 (x : ℤ) : ℤ := (x + 32768) % 65536 - 32768

/-- np.int16 subtraction of two channel values (the arrays are created with
dtype=np.int16 precisely to widen the uint8 data). -/
def i16sub (a b : ℕ) : ℤ := wrap16 ((a : ℤ) - (b : ℤ))

/-- np.abs on an int16 value (the result stays int16, wrapping again). -/
def i16abs (x : ℤ) : ℤ := wrap16 |x|

/-- diff_gray = np.max(np.abs(im1 - im2), axis=2): per-channel absolute
int16 difference reduced by the per-pixel maximum over R, G, B. -/
def diffGray (a b : Img) (x y : ℕ) : ℤ :=
  max (i16abs (i16sub (a.pix x y).r (b.pix x y).r))
    (max (i16abs (i16sub (a.pix x y).g (b.pix x y).g))
      (i16abs (i16sub (a.pix x y).b (b.pix x y).b)))

/-- diff_gray.max(): the maximum over the whole im1-sized array.  The fold
base 0 models NumPy's max of the nonempty array of absolute differences. -/
def maxDiff (a b : Img) : ℤ :=
  (Finset.range a.width ×ˢ Finset.range a.height).fold max 0
    fun p => diffGray a b p.1 p.2

/-- strategies.DifferenceStrategy._compute_difference: resample image2 to
image1's size when the sizes differ, take the per-channel absolute int16
difference, reduce by the per-pixel channel maximum, normalize the observed
maximum to 255 (uniformly zero when the maximum is zero; the float-to-uint8
conversion truncates), and replicate the grayscale result into RGB. -/
def compute_difference (im1 im2 : Img) : Img :=
  let im2' := if im1.size = im2.size then im2
    else resizeImg im2 im1.width im1.height
  let md := maxDiff im1 im2'
  { width := im1.width, height := im1.height,
    pix := fun x y =>
      let g : ℕ := if 0 < md then
          (⌊(diffGray im1 im2' x y : ℚ) * 255 / (md : ℚ)⌋).toNat
        else 0
      ⟨g, g, g⟩ }

/-- Following the claim's words: the exact (widened, non-wrapping) absolute
difference of two channel values. -/
def specAbsDiff (a b : ℕ) : ℕ := max a b - min a b

/-- Following the claim's words: the per-pixel maximum across the three
channels of the exact absolute differences. -/
def specGray (a b : Img) (x y : ℕ) : ℕ :=
  max (specAbsDiff (a.pix x y).r (b.pix x y).r)
    (max (specAbsDiff (a.pix x y).g (b.pix x y).g)
      (specAbsDiff (a.pix x y).b (b.pix x y).b))

/-- Following the claim's words: the observed maximum difference over the
image. -/
def specMaxDiff (a b : Img) : ℕ :=
  (Finset.range a.width).sup fun x => (Finset.range a.height).sup fun y =>
    specGray a b x y

/-- Following the claim's words: the difference image scaled so that the
observed maximum difference maps to 255, uniformly zero when the maximum is
zero, one gray channel replicated into RGB. -/
def specDiffImg (a b : Img) : Img :=
  { width := a.width, height := a.height,
    pix := fun x y =>
      let g := if specMaxDiff a b = 0 then 0
        else specGray a b x y * 255 / specMaxDiff a b
      ⟨g, g, g⟩ }

theorem wrap16_eq_self (x : ℤ) (h1 : -32768 ≤ x) (h2 : x < 32768) :
    wrap16 x = x := by
  unfold wrap16
  rw [Int.emod_eq_of_lt (by omega) (by omega)]
  omega

theorem i16sub_eq (a b : ℕ) (ha : a ≤ 255) (hb : b ≤ 255) :
    i16sub a b = (a : ℤ) - (b : ℤ) := by
  unfold i16sub
  apply wrap16_eq_self <;> omega

theorem abs_sub_eq_specAbsDiff (a b : ℕ) :
    |(a : ℤ) - (b : ℤ)| = ((specAbsDiff a b : ℕ) : ℤ) := by
  unfold specAbsDiff
  rcases le_total a b with h | h
  · have hz : (a : ℤ) ≤ (b : ℤ) := by exact_mod_cast h
    rw [abs_of_nonpos (sub_nonpos.mpr hz), max_eq_right h, min_eq_left h,
      Nat.cast_sub h]
    ring
  · have hz : (b : ℤ) ≤ (a : ℤ) := by exact_mod_cast h
    rw [abs_of_nonneg (sub_nonneg.mpr hz), max_eq_left h, min_eq_right h,
      Nat.cast_sub h]

theorem specAbsDiff_le (a b : ℕ) (ha : a ≤ 255) (hb : b ≤ 255) :
    specAbsDiff a b ≤ 255 := by
  unfold specAbsDiff
  omega

theorem i16abs_i16sub (a b : ℕ) (ha : a ≤ 255) (hb : b ≤ 255) :
    i16abs (i16sub a b) = ((specAbsDiff a b : ℕ) : ℤ) := by
  rw [i16sub_eq a b ha hb, i16abs, abs_sub_eq_specAbsDiff]
  have hle := specAbsDiff_le a b ha hb
  apply wrap16_eq_self <;> omega

theorem diffGray_eq_spec (a b : Img) (x y : ℕ)
    (hpa : (a.pix x y).r ≤ 255 ∧ (a.pix x y).g ≤ 255 ∧ (a.pix x y).b ≤ 255)
    (hpb : (b.pix x y).r ≤ 255 ∧ (b.pix x y).g ≤ 255 ∧ (b.pix x y).b ≤ 255) :
    diffGray a b x y = ((specGray a b x y : ℕ) : ℤ) := by
  unfold diffGray specGray
  rw [i16abs_i16sub _ _ hpa.1 hpb.1, i16abs_i16sub _ _ hpa.2.1 hpb.2.1,
    i16abs_i16sub _ _ hpa.2.2 hpb.2.2]
  simp [Nat.cast_max]

theorem fold_max_cast {ι : Type} (s : Finset ι) (f : ι → ℕ) :
    s.fold max (0 : ℤ) (fun i => ((f i : ℕ) : ℤ)) = ((s.sup f : ℕ) : ℤ) := by
  induction s using Finset.cons_induction with
  | empty => simp
  | cons a s ha ih =>
    rw [Finset.fold_cons, Finset.sup_cons, ih, Nat.cast_max]

theorem maxDiff_eq_spec (a b : Img)
    (hw : a.width = b.width) (hh : a.height = b.height)
    (hva : valid8 a) (hvb : valid8 b) :
    maxDiff a b = ((specMaxDiff a b : ℕ) : ℤ) := by
  unfold maxDiff specMaxDiff
  rw [Finset.fold_congr
    (g := fun p : ℕ × ℕ => ((specGray a b p.1 p.2 : ℕ) : ℤ)) ?_]
  · rw [fold_max_cast]
    congr 1
    rw [Finset.sup_product_left]
  · intro p hp
    obtain ⟨hx, hy⟩ := Finset.mem_product.mp hp
    rw [Finset.mem_range] at hx hy
    exact diffGray_eq_spec a b p.1 p.2 (hva p.1 hx p.2 hy)
      (hvb p.1 (hw ▸ hx) p.2 (hh ▸ hy))

theorem floor_mul_div_toNat (g M : ℕ) :
    (⌊((g : ℚ)) * 255 / ((M : ℕ) : ℚ)⌋).toNat = g * 255 / M := by
  have hcast : ((g : ℚ)) * 255 = (((g * 255 : ℕ) : ℕ) : ℚ) := by push_cast; ring
  rw [hcast, Int.floor_toNat, Nat.floor_div_nat, Nat.floor_natCast]

/-- The central pixel identity: under valid 8-bit inputs of equal size, the
code's int16-and-float pipeline computes exactly the claim's exact-arithmetic
normalization at every in-range pixel. -/
theorem compute_difference_pix_spec (a b : Img) (hsz : a.size = b.size)
    (hva : valid8 a) (hvb : valid8 b) (x y : ℕ)
    (hx : x < a.width) (hy : y < a.height) :
    (compute_difference a b).pix x y = (specDiffImg a b).pix x y := by
  have hw : a.width = b.width := congrArg Prod.fst hsz
  have hh : a.height = b.height := congrArg Prod.snd hsz
  have hmd : maxDiff a b = ((specMaxDiff a b : ℕ) : ℤ) :=
    maxDiff_eq_spec a b hw hh hva hvb
  have hg : diffGray a b x y = ((specGray a b x y : ℕ) : ℤ) :=
    diffGray_eq_spec a b x y (hva x hx y hy)
      (hvb x (hw ▸ hx) y (hh ▸ hy))
  simp only [compute_difference, specDiffImg, if_pos hsz]
  by_cases hM : specMaxDiff a b = 0
  · have hnpos : ¬ 0 < maxDiff a b := by
      rw [hmd, hM]
      simp
    simp [hnpos, hM]
  · have hpos : 0 < maxDiff a b := by
      rw [hmd]
      exact_mod_cast Nat.pos_of_ne_zero hM
    simp only [if_pos hpos, if_neg hM]
    have : (diffGray a b x y : ℚ) = ((specGray a b x y : ℕ) : ℚ) := by
      rw [hg]; push_cast; ring
    rw [this, hmd]
    have hq : ((((specMaxDiff a b : ℕ) : ℤ)) : ℚ) = ((specMaxDiff a b : ℕ) : ℚ) := by
      push_cast; ring
    rw [hq, floor_mul_div_toNat]

/-- C7: for same-sized valid 8-bit images the difference computation equals,
pixel for pixel, the claim's specification — per-channel absolute difference
in widened (non-wrapping) integer arithmetic, per-pixel maximum across the
three channels, scaled so the observed maximum maps to 255; a pixel
achieving the nonzero maximum difference maps to exactly 255, and a zero
maximum yields the uniformly zero image. -/
theorem c7_difference_formula (a b : Img) (hsz : a.size = b.size)
    (hva : valid8 a) (hvb : valid8 b) :
    imgEq (compute_difference a b) (specDiffImg a b) ∧
    (specMaxDiff a b = 0 → ∀ x < a.width, ∀ y < a.height,
      (compute_difference a b).pix x y = ⟨0, 0, 0⟩) ∧
    (∀ x < a.width, ∀ y < a.height, specMaxDiff a b ≠ 0 →
      specGray a b x y = specMaxDiff a b →
      (compute_difference a b).pix x y = ⟨255, 255, 255⟩) := by
  refine ⟨⟨rfl, rfl, ?_⟩, ?_, ?_⟩
  · intro x hx y hy
    exact compute_difference_pix_spec a b hsz hva hvb x y hx hy
  · intro hM x hx y hy
    rw [compute_difference_pix_spec a b hsz hva hvb x y hx hy]
    simp only [specDiffImg, if_pos hM]
  · intro x hx y hy hM hmax
    rw [compute_difference_pix_spec a b hsz hva hvb x y hx hy]
    simp only [specDiffImg, if_neg hM]
    have : specGray a b x y * 255 / specMaxDiff a b = 255 := by
      rw [hmax, Nat.mul_comm]
      exact Nat.mul_div_cancel 255 (Nat.pos_of_ne_zero hM)
    rw [this]

/-- A concrete valid 3 by 3 gradient image for witnesses. -/
def imGrad : Img := ⟨3, 3, fun x y => ⟨20 * x + y, 0, 0⟩⟩

/-- C7 witness: the difference formula instantiated at two concrete valid
same-sized images, with every hypothesis discharged by computation. -/
theorem c7_difference_formula_witness :
    imgEq (compute_difference img3 imGrad) (specDiffImg img3 imGrad) ∧
    (specMaxDiff img3 imGrad = 0 → ∀ x < img3.width, ∀ y < img3.height,
      (compute_difference img3 imGrad).pix x y = ⟨0, 0, 0⟩) ∧
    (∀ x < img3.width, ∀ y < img3.height, specMaxDiff img3 imGrad ≠ 0 →
      specGray img3 imGrad x y = specMaxDiff img3 imGrad →
      (compute_difference img3 imGrad).pix x y = ⟨255, 255, 255⟩) :=
  c7_difference_formula img3 imGrad rfl (by decide) (by decide)

theorem specAbsDiff_comm (a b : ℕ) : specAbsDiff a b = specAbsDiff b a := by
  unfold specAbsDiff
  rw [max_comm, min_comm]

theorem specGray_comm (a b : Img) (x y : ℕ) :
    specGray a b x y = specGray b a x y := by
  unfold specGray
  rw [specAbsDiff_comm, specAbsDiff_comm (a.pix x y).g,
    specAbsDiff_comm (a.pix x y).b]

theorem specMaxDiff_comm (a b : Img) (hw : a.width = b.width)
    (hh : a.height = b.height) : specMaxDiff a b = specMaxDiff b a := by
  unfold specMaxDiff
  rw [← hw, ← hh]
  exact Finset.sup_congr rfl fun x hx =>
    Finset.sup_congr rfl fun y hy => specGray_comm a b x y

/-- C3 (amended): the difference computation is symmetric pixel-for-pixel
for images of the same size (with valid 8-bit channels); for differing
sizes the two orders produce bitmaps of different dimensions — image2 is
always resampled to image1's size, so the output carries image1's
dimensions — refuting the unrestricted claim (see the counterexample). -/
theorem c3_difference_symmetric (a b : Img) (hsz : a.size = b.size)
    (hva : valid8 a) (hvb : valid8 b) :
    imgEq (compute_difference a b) (compute_difference b a) := by
  have hw : a.width = b.width := congrArg Prod.fst hsz
  have hh : a.height = b.height := congrArg Prod.snd hsz
  refine ⟨hw, hh, ?_⟩
  intro x hx y hy
  have hx' : x < b.width := hw ▸ hx
  have hy' : y < b.height := hh ▸ hy
  rw [compute_difference_pix_spec a b hsz hva hvb x y hx hy,
    compute_difference_pix_spec b a hsz.symm hvb hva x y hx' hy']
  simp only [specDiffImg]
  rw [specMaxDiff_comm a b hw hh, specGray_comm a b x y]

/-- C3 witness: symmetry at a concrete pair of same-sized valid images. -/
theorem c3_difference_symmetric_witness :
    imgEq (compute_difference img3 imGrad) (compute_difference imGrad img3) :=
  c3_difference_symmetric img3 imGrad rfl (by decide) (by decide)

/-- A concrete 2 by 1 zero image. -/
def imWide : Img := ⟨2, 1, fun _ _ => ⟨0, 0, 0⟩⟩

/-- C3 counterexample: with a 1 by 1 and a 2 by 1 image the two orders of
the difference computation produce bitmaps of sizes 1 by 1 and 2 by 1
respectively (the output always has image1's dimensions), so they are not
equal pixel-for-pixel and the unrestricted symmetry claim fails. -/
theorem c3_difference_counterexample :
    ¬ imgEq (compute_difference unitImg imWide) (compute_difference imWide unitImg) := by
  intro h
  have h1 : (compute_difference unitImg imWide).width = 1 := rfl
  have h2 : (compute_difference imWide unitImg).width = 2 := rfl
  rw [h1, h2] at *
  exact absurd h.1 (by decide)

/-- Placement left offset of _image_display_params_for_canvas:
int((cw - disp.width) / 2 + pan_x * cw). -/
def placeLeft (im : Img) (zoom panX : ℚ) (cw : ℕ) : ℤ :=
  pyInt (((cw : ℚ) - (dispW im zoom : ℕ)) / 2 + panX * (cw : ℚ))

/-- Placement top offset of _image_display_params_for_canvas:
int((ch - disp.height) / 2 + pan_y * ch). -/
def placeTop (im : Img) (zoom panY : ℚ) (ch : ℕ) : ℤ :=
  pyInt (((ch : ℚ) - (dispH im zoom : ℕ)) / 2 + panY * (ch : ℚ))

/-- SRCompareApp.canvas_to_image and ViewController.canvas_to_image: invert
the placement formula for image1 using image1's actual pixel dimensions;
when no display bitmap exists (image1 missing) return (0, 0). -/
def canvas_to_image (im1 : Option Img) (zoom panX panY : ℚ) (cw ch : ℕ)
    (cx cy : ℚ) : ℤ × ℤ :=
  match im1 with
  | none => (0, 0)
  | some im =>
    (pyInt ((cx - (placeLeft im zoom panX cw : ℚ)) /
        (max 1 (dispW im zoom) : ℕ) * (im.width : ℚ)),
     pyInt ((cy - (placeTop im zoom panY ch : ℚ)) /
        (max 1 (dispH im zoom) : ℕ) * (im.height : ℚ)))

/-- Defined from the spec's words (the source has no forward map): an image
point mapped to canvas coordinates through the same placement formula — the
placement offset plus the point's position scaled to the displayed bitmap. -/
def image_to_canvas_spec (im : Img) (zoom panX panY : ℚ) (cw ch : ℕ)
    (ix iy : ℕ) : ℚ × ℚ :=
  ((placeLeft im zoom panX cw : ℚ) + (ix : ℚ) * (dispW im zoom : ℕ) / (im.width : ℚ),
   (placeTop im zoom panY ch : ℚ) + (iy : ℚ) * (dispH im zoom : ℕ) / (im.height : ℚ))

theorem pyInt_natCast (n : ℕ) : pyInt ((n : ℚ)) = (n : ℤ) := by
  unfold pyInt
  rw [if_pos (by positivity)]
  exact_mod_cast Int.floor_natCast n

/-- C4: for a loaded image and a fixed viewport, mapping an interior image
point to canvas coordinates through the placement formula and back through
canvas_to_image recovers the point exactly — in particular within the
claimed one-pixel tolerance. -/
theorem c4_roundtrip (im : Img) (zoom panX panY : ℚ) (cw ch : ℕ) (ix iy : ℕ)
    (hw : 0 < im.width) (hh : 0 < im.height)
    (hx : ix < im.width) (hy : iy < im.height) :
    canvas_to_image (some im) zoom panX panY cw ch
        (image_to_canvas_spec im zoom panX panY cw ch ix iy).1
        (image_to_canvas_spec im zoom panX panY cw ch ix iy).2 =
      ((ix : ℤ), (iy : ℤ)) ∧
    |(canvas_to_image (some im) zoom panX panY cw ch
        (image_to_canvas_spec im zoom panX panY cw ch ix iy).1
        (image_to_canvas_spec im zoom panX panY cw ch ix iy).2).1 - (ix : ℤ)| ≤ 1 ∧
    |(canvas_to_image (some im) zoom panX panY cw ch
        (image_to_canvas_spec im zoom panX panY cw ch ix iy).1
        (image_to_canvas_spec im zoom panX panY cw ch ix iy).2).2 - (iy : ℤ)| ≤ 1 := by
  have hnw : (0 : ℚ) < ((max 1 (dispW im zoom) : ℕ) : ℚ) := by
    have : 1 ≤ max 1 (dispW im zoom) := le_max_left _ _
    exact_mod_cast lt_of_lt_of_le Nat.zero_lt_one this
  have hnh : (0 : ℚ) < ((max 1 (dispH im zoom) : ℕ) : ℚ) := by
    have : 1 ≤ max 1 (dispH im zoom) := le_max_left _ _
    exact_mod_cast lt_of_lt_of_le Nat.zero_lt_one this
  have hmw : max 1 (dispW im zoom) = dispW im zoom :=
    max_eq_right (one_le_dispW im zoom)
  have hmh : max 1 (dispH im zoom) = dispH im zoom :=
    max_eq_right (one_le_dispH im zoom)
  have hwq : ((im.width : ℕ) : ℚ) ≠ 0 := by
    exact_mod_cast Nat.pos_iff_ne_zero.mp hw
  have hhq : ((im.height : ℕ) : ℚ) ≠ 0 := by
    exact_mod_cast Nat.pos_iff_ne_zero.mp hh
  have hdw : ((dispW im zoom : ℕ) : ℚ) ≠ 0 := by
    have := one_le_dispW im zoom
    exact_mod_cast Nat.pos_iff_ne_zero.mp (lt_of_lt_of_le Nat.zero_lt_one this)
  have hdh : ((dispH im zoom : ℕ) : ℚ) ≠ 0 := by
    have := one_le_dispH im zoom
    exact_mod_cast Nat.pos_iff_ne_zero.mp (lt_of_lt_of_le Nat.zero_lt_one this)
  have hxx : (image_to_canvas_spec im zoom panX panY cw ch ix iy).1 -
      (placeLeft im zoom panX cw : ℚ) =
      (ix : ℚ) * (dispW im zoom : ℕ) / (im.width : ℚ) := by
    rw [image_to_canvas_spec]
    ring
  have hyy : (image_to_canvas_spec im zoom panX panY cw ch ix iy).2 -
      (placeTop im zoom panY ch : ℚ) =
      (iy : ℚ) * (dispH im zoom : ℕ) / (im.height : ℚ) := by
    rw [image_to_canvas_spec]
    ring
  have hres : canvas_to_image (some im) zoom panX panY cw ch
      (image_to_canvas_spec im zoom panX panY cw ch ix iy).1
      (image_to_canvas_spec im zoom panX panY cw ch ix iy).2 =
      ((ix : ℤ), (iy : ℤ)) := by
    rw [canvas_to_image]
    rw [hxx, hyy, hmw, hmh]
    have e1 : (ix : ℚ) * (dispW im zoom : ℕ) / (im.width : ℚ) /
        ((dispW im zoom : ℕ) : ℚ) * (im.width : ℚ) = (ix : ℚ) := by
      field_simp
      ring
    have e2 : (iy : ℚ) * (dispH im zoom : ℕ) / (im.height : ℚ) /
        ((dispH im zoom : ℕ) : ℚ) * (im.height : ℚ) = (iy : ℚ) := by
      field_simp
      ring
    rw [e1, e2, pyInt_natCast, pyInt_natCast]
  refine ⟨hres, ?_, ?_⟩
  · rw [hres]; simp
  · rw [hres]; simp

/-- C4 witness: the round trip at a concrete interior point of a concrete
image, viewport, zoom and pan. -/
theorem c4_roundtrip_witness :
    canvas_to_image (some img3) (1/2) (1/10) (-1/5) 50 40
        (image_to_canvas_spec img3 (1/2) (1/10) (-1/5) 50 40 2 1).1
        (image_to_canvas_spec img3 (1/2) (1/10) (-1/5) 50 40 2 1).2 =
      ((2 : ℤ), (1 : ℤ)) :=
  (c4_roundtrip img3 (1/2) (1/10) (-1/5) 50 40 2 1
    (by decide) (by decide) (by decide) (by decide)).1

/-- The comparison modes of the application. -/
inductive Mode where
  | side_by_side
  | toggle
  | slider
  | magnifier
  | difference
deriving DecidableEq

/-- The application state canvas_to_image runs against: the two loaded
images, the shared view parameters, the mode, and the two canvas sizes. -/
structure AppState where
  im1 : Option Img
  im2 : Option Img
  zoom : ℚ
  panX : ℚ
  panY : ℚ
  mode : Mode
  canvasLeftW : ℕ
  canvasLeftH : ℕ
  canvasRightW : ℕ
  canvasRightH : ℕ

/-- SRCompareApp.canvas_to_image at the application level: for_left selects
only which canvas's dimensions are used; the inverse mapping itself always
runs on image1. -/
def canvas_to_image_app (s : AppState) (cx cy : ℚ) (forLeft : Bool) : ℤ × ℤ :=
  canvas_to_image s.im1 s.zoom s.panX s.panY
    (if forLeft then s.canvasLeftW else s.canvasRightW)
    (if forLeft then s.canvasLeftH else s.canvasRightH) cx cy

/-- C10: canvas_to_image depends only on image1, the view parameters and
the selected canvas size — never on image2 or the mode — and returns (0, 0)
whenever image1 has no display bitmap, including when only image2 is
loaded. -/
theorem c10_canvas_to_image_uses_image1
    (im1 a2 b2 : Option Img) (z px py : ℚ) (m1 m2 : Mode)
    (clw clh crw crh : ℕ) (cx cy : ℚ) (fl : Bool) :
    canvas_to_image_app ⟨im1, a2, z, px, py, m1, clw, clh, crw, crh⟩ cx cy fl =
      canvas_to_image_app ⟨im1, b2, z, px, py, m2, clw, clh, crw, crh⟩ cx cy fl ∧
    (im1 = none →
      canvas_to_image_app ⟨im1, a2, z, px, py, m1, clw, clh, crw, crh⟩ cx cy fl =
        (0, 0)) := by
  constructor
  · rfl
  · intro h
    rw [canvas_to_image_app, h]
    rfl

/-- C10 witness: with image1 absent and image2 loaded, the inverse mapping
returns (0, 0) on both canvases, and image2 and the mode are irrelevant. -/
theorem c10_canvas_to_image_uses_image1_witness :
    canvas_to_image_app
        ⟨none, some img3, 1, 0, 0, Mode.slider, 50, 40, 30, 20⟩ 7 9 false =
      canvas_to_image_app
        ⟨none, none, 1, 0, 0, Mode.difference, 50, 40, 30, 20⟩ 7 9 false ∧
    canvas_to_image_app
        ⟨none, some img3, 1, 0, 0, Mode.slider, 50, 40, 30, 20⟩ 7 9 false =
      (0, 0) :=
  ⟨(c10_canvas_to_image_uses_image1 none (some img3) none 1 0 0
      Mode.slider Mode.difference 50 40 30 20 7 9 false).1,
    (c10_canvas_to_image_uses_image1 none (some img3) none 1 0 0
      Mode.slider Mode.difference 50 40 30 20 7 9 false).2 rfl⟩

/-- The similarity engine's observable state, with ghost counters: the
in-progress flag the code keeps, the number of workers currently in flight,
and the total number of worker launches. -/
structure EngineState where
  inProgress : Bool
  inFlight : ℕ
  launches : ℕ
deriving DecidableEq

/-- PSNRCalculator.start_calculation (and the identical
SRCompareApp._start_psnr_calculation): when the precondition fails (images
missing or of different sizes) the result is cleared and nothing starts;
when a calculation is already in progress the call returns without starting
a thread; otherwise the flag is set and one worker thread started. -/
def start_calculation (s : EngineState) (imagesOk : Bool) : EngineState :=
  if imagesOk = false then s
  else if s.inProgress then s
  else ⟨true, s.inFlight + 1, s.launches + 1⟩

/-- The completion callbacks _on_psnr_calculated / _on_psnr_calculation_failed,
posted back to the interactive context by a finishing worker: clear the
in-progress flag (one worker leaves flight). -/
def finish_calculation (s : EngineState) : EngineState :=
  ⟨false, s.inFlight - 1, s.launches⟩

/-- One observable event of the engine: a request with the precondition
outcome, or the completion callback of a worker that is actually running. -/
inductive EngineStep : EngineState → EngineState → Prop where
  | request (s : EngineState) (ok : Bool) : EngineStep s (start_calculation s ok)
  | finish (s : EngineState) (h : 0 < s.inFlight) : EngineStep s (finish_calculation s)

/-- The engine's initial state: idle, no workers, no launches. -/
def engineInit : EngineState := ⟨false, 0, 0⟩

/-- States reachable from the initial engine state through engine events. -/
inductive EngineReachable : EngineState → Prop where
  | init : EngineReachable engineInit
  | step {s t : EngineState} : EngineReachable s → EngineStep s t → EngineReachable t

theorem start_inv (s : EngineState) (ok : Bool)
    (ih : (s.inProgress = true → s.inFlight = 1) ∧
      (s.inProgress = false → s.inFlight = 0)) :
    ((start_calculation s ok).inProgress = true →
        (start_calculation s ok).inFlight = 1) ∧
      ((start_calculation s ok).inProgress = false →
        (start_calculation s ok).inFlight = 0) := by
  unfold start_calculation
  cases ok with
  | false => simpa using ih
  | true =>
    cases hp : s.inProgress with
    | true => simpa [hp] using ih
    | false =>
      simp
      exact ih.2 hp

theorem finish_inv (s : EngineState)
    (ih : (s.inProgress = true → s.inFlight = 1) ∧
      (s.inProgress = false → s.inFlight = 0)) :
    ((finish_calculation s).inProgress = true →
        (finish_calculation s).inFlight = 1) ∧
      ((finish_calculation s).inProgress = false →
        (finish_calculation s).inFlight = 0) := by
  unfold finish_calculation
  refine ⟨fun h => (nomatch h), fun _ => ?_⟩
  cases hp : s.inProgress with
  | true => simp [ih.1 hp]
  | false => simp [ih.2 hp]

theorem engine_inv (s : EngineState) (h : EngineReachable s) :
    (s.inProgress = true → s.inFlight = 1) ∧
      (s.inProgress = false → s.inFlight = 0) := by
  induction h with
  | init => exact ⟨fun h => (nomatch h), fun _ => rfl⟩
  | step hr hs ih =>
    cases hs with
    | request ok => exact start_inv _ ok ih
    | finish hf => exact finish_inv _ ih

/-- C8: the similarity engine is single-flight — (i) in every reachable
state at most one PSNR worker is in flight; (ii) a request made while a
calculation is in progress launches no worker; (iii) two requests in rapid
succession from an idle state with valid images launch exactly one worker,
the first setting the in-progress flag that silences the second. -/
theorem c8_single_flight :
    (∀ s : EngineState, EngineReachable s → s.inFlight ≤ 1) ∧
    (∀ (s : EngineState) (ok : Bool), s.inProgress = true →
      (start_calculation s ok).launches = s.launches) ∧
    (∀ s : EngineState, s.inProgress = false →
      (start_calculation (start_calculation s true) true).launches =
        s.launches + 1) := by
  refine ⟨?_, ?_, ?_⟩
  · intro s hr
    have h := engine_inv s hr
    cases hp : s.inProgress with
    | true => rw [h.1 hp]
    | false => rw [h.2 hp]; omega
  · intro s ok hp
    unfold start_calculation
    cases ok with
    | false => simp
    | true => simp [hp]
  · intro s hp
    unfold start_calculation
    simp [hp]

/-- C8 witness: the single-flight statement instantiated at the initial
state (reachable by construction) and at a concrete in-progress state. -/
theorem c8_single_flight_witness :
    engineInit.inFlight ≤ 1 ∧
    (start_calculation ⟨true, 1, 5⟩ true).launches = 5 ∧
    (start_calculation (start_calculation engineInit true) true).launches =
      engineInit.launches + 1 :=
  ⟨c8_single_flight.1 engineInit EngineReachable.init,
    c8_single_flight.2.1 ⟨true, 1, 5⟩ true rfl,
    c8_single_flight.2.2 engineInit rfl⟩

/-- What a worker publishes back to the interactive context. -/
inductive Published where
  | value : PsnrResult → Published
  | unavailable : Published

/-- The try/except inside image_utils.calculate_psnr_sync, modelled over an
explicit outcome of the computation body: an internal failure is caught
right there and the numeric 0.0 is returned in its place. -/
def calculate_psnr_sync_caught (comp : Except Unit PsnrResult) : PsnrResult :=
  match comp with
  | .ok v => v
  | .error _ => .val 0

/-- psnr_calculator.PSNRCalculator._calculate_psnr_thread, the worker used
by the modular application (main.py): it wraps the call in try/except, but
calculate_psnr_sync catches internally and never raises, so the worker
always posts _on_psnr_calculated with the returned number. -/
def calculate_psnr_thread_modular (comp : Except Unit PsnrResult) : Published :=
  .value (calculate_psnr_sync_caught comp)

/-- SRCompareApp._calculate_psnr_thread in sr_compare.py: its sync
computation has no internal handler, so an internal failure propagates to
the worker's except branch, which posts _on_psnr_calculation_failed and the
result is cleared to None (unavailable). -/
def calculate_psnr_thread_monolith (comp : Except Unit PsnrResult) : Published :=
  match comp with
  | .ok v => .value v
  | .error _ => .unavailable

/-- C9 (amended): in the monolith worker (sr_compare.py) an internal PSNR
failure is caught by the worker and published as unavailable, and a
successful computation publishes its value; but in the modular pipeline
(main.py via psnr_calculator.py and image_utils.py) the failure is caught
inside calculate_psnr_sync and published as the numeric 0.0 — a numeric
score standing in for the failure — never as unavailable. -/
theorem c9_failure_publishing :
    (∀ e : Unit, calculate_psnr_thread_monolith (.error e) = .unavailable) ∧
    (∀ v : PsnrResult, calculate_psnr_thread_monolith (.ok v) = .value v) ∧
    (∀ e : Unit, calculate_psnr_thread_modular (.error e) = .value (.val 0)) ∧
    (∀ comp : Except Unit PsnrResult,
      calculate_psnr_thread_modular comp ≠ .unavailable) := by
  refine ⟨fun e => rfl, fun v => rfl, fun e => rfl, ?_⟩
  intro comp h
  cases h

/-- C9 witness: the publishing behavior at concrete worker outcomes — a
failing and a succeeding computation in the monolith worker, and a failing
computation in the modular pipeline. -/
theorem c9_failure_publishing_witness :
    calculate_psnr_thread_monolith (.error ()) = .unavailable ∧
    calculate_psnr_thread_monolith (.ok .inf) = .value .inf ∧
    calculate_psnr_thread_modular (.error ()) = .value (.val 0) ∧
    calculate_psnr_thread_modular (.ok .inf) ≠ .unavailable :=
  ⟨c9_failure_publishing.1 (), c9_failure_publishing.2.1 .inf,
    c9_failure_publishing.2.2.1 (), c9_failure_publishing.2.2.2 (.ok .inf)⟩

/-- C9 counterexample: an exception during the PSNR computation in the
modular pipeline is published as the numeric 0.0, not as unavailable,
refuting the claim that an internal failure is never published as a numeric
score. -/
theorem c9_failure_counterexample :
    calculate_psnr_thread_modular (.error ()) = .value (.val 0) ∧
    Published.value (.val 0) ≠ Published.unavailable := by
  refine ⟨rfl, ?_⟩
  intro h
  cases h

end SRCompare
